import Mathlib

/-!
Verification of the wiki2anki word-selection-and-definition pipeline.

Shallow embedding of the repository's core code (src/page.py, src/source.py):
the tokenizer (`Cleaner` / `BasicEnglishCleaner`), the frequency filter
(common-word mask of `Wiki2Anki.get_words` / `remove_common`), the definition
resolver (`WiktionaryDefiner.get_definition` / `define`), the orchestrating
pipeline (`Wiki2Anki.get_words` / `get_cards` / `get_deck`) and the deck
formatter (`Deck.as_string`).

Strings are embedded as lists of characters (`Tok`), fallible code as
`Except Unit` (an `.error ()` is a Python exception escaping the function),
and the external Wiktionary lookup as an explicit function parameter from
words to parsed entry lists.
-/

namespace WikiToAnki

open List

/-- A Python string, embedded as its list of characters. -/
abbrev Tok := List Char

/-- The character class of the compiled pattern `\s` used in
`WHITESPACE = re.compile(r"\s+")` (ASCII whitespace). -/
def isSpaceChar (c : Char) : Bool :=
  c = ' ' || c = '\t' || c = '\n' || c = '\r' || c = '\x0b' || c = '\x0c'

/-- The character class `\w` used in `NON_ALNUM = re.compile(r"[^\w\s]")`:
alphanumeric or underscore (ASCII). -/
def isWordChar (c : Char) : Bool :=
  c.isAlphanum || c = '_'

/-- `Cleaner.remove_punctuation`: `NON_ALNUM.sub("", string)` deletes every
character matching `[^\w\s]`, i.e. keeps word characters and whitespace. -/
def remove_punctuation (s : Tok) : Tok :=
  s.filter (fun c => isWordChar c || isSpaceChar c)

/-- Accumulator loop realising Python `re.split(r"\s+", s)`: `acc` holds the
current segment (reversed), `inSpace` records whether the previous character
was part of a whitespace run. -/
def splitAux : Tok → Bool → Tok → List Tok
  | [], _, acc => [acc.reverse]
  | c :: cs, inSpace, acc =>
    if isSpaceChar c then
      if inSpace then splitAux cs true acc
      else acc.reverse :: splitAux cs true []
    else
      splitAux cs false (c :: acc)

/-- `Cleaner.split_by_whitespace`: `WHITESPACE.split(string)`, Python
`re.split` semantics (leading/trailing whitespace produce empty segments,
interior runs produce single breaks). -/
def split_by_whitespace (s : Tok) : List Tok :=
  splitAux s false []

/-- `BasicEnglishCleaner.clean`: remove punctuation, then split by
whitespace. -/
def clean (s : Tok) : List Tok :=
  split_by_whitespace (remove_punctuation s)

/-- One definition group of a parsed Wiktionary entry: its `"text"` field,
a list of text segments. -/
structure WikiDefinition where
  text : List Tok
deriving DecidableEq

/-- One parsed Wiktionary entry: its `"definitions"` field. -/
structure WikiEntry where
  definitions : List WikiDefinition
deriving DecidableEq

/-- The external lookup `self.parser.fetch(word, language=...)`: a word maps
to a (possibly empty) list of parsed entries. -/
abbrev Fetch := Tok → List WikiEntry

/-- `WiktionaryDefiner.get_definition` (= `_query_wiktionary` of source.py).
`.ok none` models a `return None`; `.error ()` models a Python `IndexError`
escaping the method. Only the access `definitions[definition_n]` is wrapped
in `try/except IndexError`; the accesses `self.entry[entry_n]` and `text[1]`
are not, so an out-of-range index there escapes. -/
def get_definition (fetch : Fetch) (word : Tok) (entryN definitionN : Nat) :
    Except Unit (Option Tok) :=
  let entry := fetch word
  if entry = [] then
    .ok none
  else
    match entry[entryN]? with
    | none => .error ()
    | some e =>
      match e.definitions[definitionN]? with
      | none => .ok none
      | some d =>
        match d.text[1]? with
        | none => .error ()
        | some t => .ok (some t)

/-- Python `str.lower()` on one character, restricted to the ASCII range the
tokens use; identical to `Char.toLower`. -/
def lowerChar (c : Char) : Char :=
  Char.toLower c

/-- Python `word.lower()`. -/
def str_lower (w : Tok) : Tok :=
  w.map lowerChar

/-- `WiktionaryDefiner.define` (= `query_wiktionary` of source.py): look the
word up; if that returns `None` and the lowercased word differs, look the
lowercased word up instead; an escaping exception propagates. -/
def define (fetch : Fetch) (word : Tok) : Except Unit (Option Tok) :=
  match get_definition fetch word 0 0 with
  | .error e => .error e
  | .ok (some r) => .ok (some r)
  | .ok none =>
    if str_lower word ≠ word then get_definition fetch (str_lower word) 0 0
    else .ok none

/-- The sequence of words `define` submits to the external source, in query
order (instrumentation of the control flow of `define`). -/
def define_queries (fetch : Fetch) (word : Tok) : List Tok :=
  match get_definition fetch word 0 0 with
  | .ok none =>
    if str_lower word ≠ word then [word, str_lower word] else [word]
  | _ => [word]

/-- One row of the frequency reference `../data/english_10000.csv`
(columns `rank word count`). -/
structure FreqRow where
  rank : Nat
  word : Tok
  count : Nat
deriving DecidableEq

/-- The word column of `pd.read_csv(...).head(n=top)`: the words of the
first `top` rows of the frequency table. -/
def commonWords (table : List FreqRow) (top : Nat) : List Tok :=
  (table.take top).map FreqRow.word

/-- The common-word mask of `Wiki2Anki.get_words` (= `remove_common` of
source.py): `df["word"].isin(common["word"]) | df["word"].str.lower().isin(common["word"])`. -/
def is_common (table : List FreqRow) (top : Nat) (w : Tok) : Bool :=
  decide (w ∈ commonWords table top) || decide (str_lower w ∈ commonWords table top)

/-- `df.drop_duplicates("word")` keeps the first occurrence of each word;
`seen` is the set of words already emitted. -/
def dropDupAux : List Tok → List Tok → List Tok
  | [], _ => []
  | x :: xs, seen =>
    if x ∈ seen then dropDupAux xs seen
    else x :: dropDupAux xs (x :: seen)

/-- `df.drop_duplicates("word")` on the token list. -/
def drop_duplicates (l : List Tok) : List Tok :=
  dropDupAux l []

/-- The candidate words of `Wiki2Anki.get_words` with the `df.head` cap as a
parameter: deduplicate, truncate to `maxWords` rows, drop common words. -/
def candidate_words_n (table : List FreqRow) (top maxWords : Nat) (text : Tok) :
    List Tok :=
  ((drop_duplicates (clean text)).take maxWords).filter
    (fun w => !(is_common table top w))

/-- The candidate words exactly as `Wiki2Anki.get_words` computes them: the
source hard-codes `df.head(100)`. -/
def candidate_words (table : List FreqRow) (top : Nat) (text : Tok) : List Tok :=
  candidate_words_n table top 100 text

/-- A `Flashcard` (also the resolved state of a `Word`): a word together
with the definition `Definer.define` produced for it, `none` when no
definition was found. -/
structure Flashcard where
  word : Tok
  definition : Option Tok
deriving DecidableEq

/-- `Flashcard.get_flashcard`: `f'{self.word}; "{self.definition}"'`
(by the time it is called the definition is a present string). -/
def get_flashcard (c : Flashcard) : Tok :=
  c.word ++ ("; \"").data ++ (match c.definition with
    | some d => d
    | none => ("None").data) ++ ['"']

/-- The resolution loop of `Wiki2Anki.get_words` followed by
`Flashcard.from_word`: each surviving word is resolved by `define`, in list
order; an exception escaping one resolution aborts the loop. -/
def resolve_all (fetch : Fetch) : List Tok → Except Unit (List Flashcard)
  | [] => .ok []
  | w :: ws =>
    match define fetch w with
    | .error e => .error e
    | .ok d =>
      match resolve_all fetch ws with
      | .error e => .error e
      | .ok rest => .ok ({ word := w, definition := d } :: rest)

/-- The cards that survive the two filters of `Deck.as_string`: definition
present, then word non-empty (Python truthiness of a string). -/
def survivors (deck : List Flashcard) : List Flashcard :=
  (deck.filter (fun c => c.definition.isSome)).filter (fun c => c.word ≠ [])

/-- `"\n".join(...)`: concatenate with a single newline between consecutive
elements and nothing at either end. -/
def joinLines : List Tok → Tok
  | [] => []
  | [x] => x
  | x :: y :: xs => x ++ '\n' :: joinLines (y :: xs)

/-- `Deck.as_string`: drop cards with no definition, drop cards with an
empty word, render each survivor with `get_flashcard`, join with newline. -/
def as_string (deck : List Flashcard) : Tok :=
  joinLines ((survivors deck).map get_flashcard)

/-- The computation performed inside `Wiki2Anki.get_words` (lines 164-173):
build the candidate word list and resolve every candidate. The Python
method computes this list but falls through without a `return` statement;
see `get_words` below for the faithful return value. -/
def get_words_run (table : List FreqRow) (top : Nat) (fetch : Fetch) (text : Tok) :
    Except Unit (List Flashcard) :=
  resolve_all fetch (candidate_words table top text)

/-- `Wiki2Anki.get_words` as written: it performs `get_words_run` (for its
side effects on the `Word` objects) and then returns `None` because the
method body has no `return` statement. -/
def get_words (table : List FreqRow) (top : Nat) (fetch : Fetch) (text : Tok) :
    Except Unit (Option (List Flashcard)) :=
  match get_words_run table top fetch text with
  | .error e => .error e
  | .ok _ => .ok none

/-- `Wiki2Anki.get_cards` as written: it iterates over the result of
`self.get_words()`; when that result is `None` the iteration raises
`TypeError` (modelled `.error ()`). -/
def get_cards (table : List FreqRow) (top : Nat) (fetch : Fetch) (text : Tok) :
    Except Unit (List Flashcard) :=
  match get_words table top fetch text with
  | .error e => .error e
  | .ok none => .error ()
  | .ok (some ws) => .ok ws

/-- `Wiki2Anki.get_deck` as written: format the cards of `get_cards`. -/
def get_deck (table : List FreqRow) (top : Nat) (fetch : Fetch) (text : Tok) :
    Except Unit Tok :=
  match get_cards table top fetch text with
  | .error e => .error e
  | .ok cards => .ok (as_string cards)

/-- The deck-building pipeline `get_words` / `get_cards` / `get_deck` with
the missing `return words` restored (the behaviour the docstrings of
`get_words` and `get_cards` describe): resolve the candidates and format. -/
def build_deck (table : List FreqRow) (top : Nat) (fetch : Fetch) (text : Tok) :
    Except Unit Tok :=
  match get_words_run table top fetch text with
  | .error e => .error e
  | .ok cards => .ok (as_string cards)

/-- The text of the spec's end-to-end scenario. -/
def scenarioText : Tok := ("The quick Fox jumps over the lazy dog. The Fox runs.").data

/-- A frequency table whose top rows are exactly
`{the, quick, over, lazy, dog, runs}`. -/
def scenarioTable : List FreqRow :=
  [⟨1, ("the").data, 0⟩, ⟨2, ("quick").data, 0⟩, ⟨3, ("over").data, 0⟩,
   ⟨4, ("lazy").data, 0⟩, ⟨5, ("dog").data, 0⟩, ⟨6, ("runs").data, 0⟩]

/-- A definition source returning `"a wild canine"` for `fox` (its text list
is `[part-of-speech, prose]`) and nothing for any other word. -/
def scenarioFetch : Fetch := fun w =>
  if w = ("fox").data then [⟨[⟨[("noun").data, ("a wild canine").data]⟩]⟩] else []

/-- A definition source whose single entry's first definition carries only
one text element (the part-of-speech label), i.e. `text[1]` is missing. -/
def fetchShortText : Fetch := fun _ => [⟨[⟨[("noun").data]⟩]⟩]

/-- A definition source whose single entry's first definition carries a
well-formed two-element text list. -/
def fetchTwoTexts : Fetch := fun _ => [⟨[⟨[("noun").data, ("a dwelling").data]⟩]⟩]

/-! ### Supporting lemmas -/

theorem toNat_ofNat_valid {n : Nat} (h : n.isValidChar) : (Char.ofNat n).toNat = n := by
  rw [Char.ofNat, dif_pos h]; rfl

theorem isUpper_iff_toNat (c : Char) : c.isUpper = true ↔ 65 ≤ c.toNat ∧ c.toNat ≤ 90 := by
  simp [Char.isUpper, UInt32.le_def, BitVec.le_def, Char.toNat, UInt32.toNat]

/-- Lowercasing fixes a character exactly when it is not an ASCII capital. -/
theorem lowerChar_eq_self_iff (c : Char) : lowerChar c = c ↔ c.isUpper = false := by
  unfold lowerChar Char.toLower
  constructor
  · intro h
    by_contra hb
    have hu : c.isUpper = true := by
      cases hx : c.isUpper
      · exact absurd hx hb
      · rfl
    have hn := (isUpper_iff_toNat c).1 hu
    rw [if_pos ⟨hn.1, hn.2⟩] at h
    have hv : (c.toNat + 32).isValidChar := Or.inl (by omega)
    have := congrArg Char.toNat h
    rw [toNat_ofNat_valid hv] at this
    omega
  · intro h
    have : ¬ (65 ≤ c.toNat ∧ c.toNat ≤ 90) := by
      intro hc
      rw [(isUpper_iff_toNat c).2 hc] at h
      exact Bool.noConfusion h
    rw [if_neg this]

theorem map_lowerChar_eq_self_iff (w : Tok) :
    w.map lowerChar = w ↔ ∀ c ∈ w, c.isUpper = false := by
  induction w with
  | nil => simp
  | cons c cs ih =>
    simp only [List.map_cons, List.cons.injEq, List.mem_cons, ih]
    constructor
    · rintro ⟨h1, h2⟩ d hd
      rcases hd with rfl | hd
      · exact (lowerChar_eq_self_iff d).1 h1
      · exact h2 d hd
    · intro h
      exact ⟨(lowerChar_eq_self_iff c).2 (h c (Or.inl rfl)), fun d hd => h d (Or.inr hd)⟩

/-- `word.lower() == word` exactly when `word` has no uppercase character. -/
theorem str_lower_eq_self_iff (w : Tok) :
    str_lower w = w ↔ ∀ c ∈ w, c.isUpper = false :=
  map_lowerChar_eq_self_iff w

theorem splitAux_ne_nil (s : Tok) (b : Bool) (acc : Tok) : splitAux s b acc ≠ [] := by
  induction s generalizing b acc with
  | nil => simp [splitAux]
  | cons c cs ih =>
    simp only [splitAux]
    by_cases hc : isSpaceChar c
    · by_cases hb : b
      · simpa [hc, hb] using ih true acc
      · simp [hc, hb]
    · simpa [hc] using ih false (c :: acc)

/-- A leading whitespace character produces a leading empty token. -/
theorem clean_head_of_space {c : Char} (s : Tok) (hc : isSpaceChar c = true) :
    (clean (c :: s)).head? = some [] := by
  have hkeep : (isWordChar c || isSpaceChar c) = true := by simp [hc]
  simp [clean, remove_punctuation, List.filter_cons, hkeep, split_by_whitespace, splitAux, hc]

/-- A trailing whitespace character produces a trailing empty token. -/
theorem splitAux_getLast_space {c : Char} (hc : isSpaceChar c = true) :
    ∀ (s : Tok) (b : Bool) (acc : Tok), (b = true → acc = []) →
      (splitAux (s ++ [c]) b acc).getLast? = some [] := by
  intro s
  induction s with
  | nil =>
    intro b acc hinv
    cases b with
    | true => simp [splitAux, hc, hinv rfl]
    | false => simp [splitAux, hc]
  | cons d s' ih =>
    intro b acc hinv
    by_cases hd : isSpaceChar d
    · cases b with
      | true =>
        have : acc = [] := hinv rfl
        subst this
        simpa [splitAux, hd] using ih true [] (fun _ => rfl)
      | false =>
        simp only [List.cons_append, splitAux, hd, if_true, Bool.false_eq_true, if_false,
          List.append_eq]
        have hne := splitAux_ne_nil (s' ++ [c]) true []
        obtain ⟨y, ys, hys⟩ := List.exists_cons_of_ne_nil hne
        rw [hys, List.getLast?_cons_cons, ← hys]
        exact ih true [] (fun _ => rfl)
    · simp only [List.cons_append, splitAux, hd, if_false, List.append_eq]
      exact ih false (d :: acc) (fun h => Bool.noConfusion h)

theorem remove_punctuation_eq_self {s : Tok}
    (h : ∀ a ∈ s, (isWordChar a || isSpaceChar a) = true) :
    remove_punctuation s = s :=
  List.filter_eq_self.2 h

theorem dropDupAux_sublist (l : List Tok) : ∀ seen, dropDupAux l seen <+ l := by
  induction l with
  | nil => intro seen; simp [dropDupAux]
  | cons x xs ih =>
    intro seen
    by_cases h : x ∈ seen
    · simp only [dropDupAux, if_pos h]
      exact (ih seen).trans (List.sublist_cons_self x xs)
    · simp only [dropDupAux, if_neg h]
      exact (ih (x :: seen)).cons₂ x

theorem dropDupAux_nodup (l : List Tok) :
    ∀ seen, (dropDupAux l seen).Nodup ∧ ∀ x ∈ dropDupAux l seen, x ∉ seen := by
  induction l with
  | nil => intro seen; simp [dropDupAux]
  | cons x xs ih =>
    intro seen
    by_cases h : x ∈ seen
    · simp only [dropDupAux, if_pos h]
      exact ih seen
    · simp only [dropDupAux, if_neg h]
      obtain ⟨hnd, hns⟩ := ih (x :: seen)
      refine ⟨List.nodup_cons.2 ⟨fun hx => (hns x hx) (List.mem_cons_self x seen), hnd⟩, ?_⟩
      intro y hy
      rcases List.mem_cons.1 hy with rfl | hy'
      · exact h
      · intro hy2
        exact hns y hy' (List.mem_cons_of_mem x hy2)

theorem mem_dropDupAux (l : List Tok) :
    ∀ seen x, x ∈ dropDupAux l seen ↔ x ∈ l ∧ x ∉ seen := by
  induction l with
  | nil => intro seen x; simp [dropDupAux]
  | cons y ys ih =>
    intro seen x
    by_cases h : y ∈ seen
    · simp only [dropDupAux, if_pos h, ih, List.mem_cons]
      by_cases hxy : x = y
      · subst hxy; tauto
      · tauto
    · simp only [dropDupAux, if_neg h, List.mem_cons, ih]
      by_cases hxy : x = y
      · subst hxy; tauto
      · tauto

/-- Deduplicating a truncation of the list yields an initial segment of
deduplicating the whole list: first occurrences are kept. -/
theorem dropDupAux_take_isPre (l : List Tok) :
    ∀ (n : Nat) (seen : List Tok), dropDupAux (l.take n) seen <+: dropDupAux l seen := by
  induction l with
  | nil => intro n seen; simp [dropDupAux]
  | cons x xs ih =>
    intro n seen
    cases n with
    | zero => simp [dropDupAux]
    | succ n =>
      simp only [List.take_succ_cons]
      by_cases h : x ∈ seen
      · simp only [dropDupAux, if_pos h]
        exact ih n seen
      · simp only [dropDupAux, if_neg h]
        obtain ⟨t, ht⟩ := ih n (x :: seen)
        exact ⟨t, by rw [List.cons_append, ht]⟩

/-- When the resolution loop completes, the words of the resulting cards are
exactly the input words, in order. -/
theorem resolve_all_ok_words (fetch : Fetch) :
    ∀ (ws : List Tok) (deck : List Flashcard),
      resolve_all fetch ws = .ok deck → deck.map Flashcard.word = ws := by
  intro ws
  induction ws with
  | nil =>
    intro deck h
    simp only [resolve_all] at h
    cases h
    rfl
  | cons w ws' ih =>
    intro deck h
    simp only [resolve_all] at h
    cases hdef : define fetch w with
    | error e => rw [hdef] at h; cases h
    | ok d =>
      rw [hdef] at h
      cases hr : resolve_all fetch ws' with
      | error e => rw [hr] at h; cases h
      | ok rest =>
        rw [hr] at h
        cases h
        simp [ih rest hr]

/-- Every rendered flashcard line ends with the closing double quote. -/
theorem get_flashcard_getLast (c : Flashcard) : (get_flashcard c).getLast? = some '"' := by
  unfold get_flashcard
  cases c.definition with
  | none => simp [List.getLast?_append]
  | some v =>
    show (((c.word ++ ("; \"").data) ++ v) ++ ['"']).getLast? = some '"'
    exact List.getLast?_concat _

theorem joinLines_getLast :
    ∀ (l : List Tok), (∀ x ∈ l, x.getLast? = some '"') → l ≠ [] →
      (joinLines l).getLast? = some '"'
  | [], _, hne => absurd rfl hne
  | [x], h, _ => by simpa [joinLines] using h x (List.mem_cons_self x [])
  | x :: y :: ys, h, _ => by
    have hih := joinLines_getLast (y :: ys)
      (fun z hz => h z (List.mem_cons_of_mem x hz)) (List.cons_ne_nil y ys)
    have hne : joinLines (y :: ys) ≠ [] := by
      intro he
      rw [he] at hih
      simp at hih
    obtain ⟨j, js, hj⟩ := List.exists_cons_of_ne_nil hne
    simp only [joinLines, List.getLast?_append, hj, List.getLast?_cons_cons]
    rw [← hj, hih]
    rfl

/-- Joining n newline-free lines emits exactly n-1 newline characters. -/
theorem joinLines_count_newline :
    ∀ (l : List Tok), (∀ x ∈ l, '\n' ∉ x) → l ≠ [] →
      (joinLines l).count '\n' + 1 = l.length
  | [], _, hne => absurd rfl hne
  | [x], h, _ => by
    simp [joinLines, List.count_eq_zero_of_not_mem (h x (List.mem_cons_self x []))]
  | x :: y :: ys, h, _ => by
    have hih := joinLines_count_newline (y :: ys)
      (fun z hz => h z (List.mem_cons_of_mem x hz)) (List.cons_ne_nil y ys)
    simp only [joinLines, List.count_append, List.count_cons_self,
      List.count_eq_zero_of_not_mem (h x (List.mem_cons_self x _)), List.length_cons] at *
    omega

theorem take_isPre (n : Nat) (l : List Tok) : l.take n <+: l :=
  ⟨l.drop n, List.take_append_drop n l⟩

theorem take_mono_pre {n m : Nat} (h : n ≤ m) (l : List Tok) : l.take n <+: l.take m := by
  have hx := take_isPre n (l.take m)
  rwa [List.take_take, Nat.min_eq_left h] at hx

theorem filter_mono_pre {l₁ l₂ : List Tok} (p : Tok → Bool) (h : l₁ <+: l₂) :
    l₁.filter p <+: l₂.filter p := by
  obtain ⟨t, rfl⟩ := h
  exact ⟨t.filter p, (List.filter_append _ _).symm⟩

/-- The defensive filter pair of `Deck.as_string` is idempotent. -/
theorem survivors_idem (l : List Flashcard) : survivors (survivors l) = survivors l := by
  have hp : List.filter (fun c => c.definition.isSome) (survivors l) = survivors l :=
    List.filter_eq_self.2 (fun c hc => (List.mem_filter.1 (List.mem_filter.1 hc).1).2)
  show List.filter _ (List.filter _ (survivors l)) = survivors l
  rw [hp]
  exact List.filter_eq_self.2 (fun c hc => (List.mem_filter.1 hc).2)

theorem survivors_sublist (l : List Flashcard) : survivors l <+ l :=
  (List.filter_sublist _).trans (List.filter_sublist _)

theorem drop_duplicates_sublist (l : List Tok) : drop_duplicates l <+ l :=
  dropDupAux_sublist l []

theorem drop_duplicates_nodup (l : List Tok) : (drop_duplicates l).Nodup :=
  (dropDupAux_nodup l []).1

theorem mem_drop_duplicates (l : List Tok) (x : Tok) :
    x ∈ drop_duplicates l ↔ x ∈ l := by
  rw [drop_duplicates, mem_dropDupAux]
  simp

/-! ### Claims -/

/-- C1, counterexample: the claim states that a text list with fewer than
two elements makes the resolver report "no definition found" instead of
raising an escaping error; but on a source whose first definition carries a
single text element, `text[1]` is evaluated outside the `try` block and the
`IndexError` escapes both `get_definition` and `define`. -/
theorem C1_counterexample :
    get_definition fetchShortText (("light").data) 0 0 = .error () ∧
    define fetchShortText (("light").data) = .error () :=
  ⟨rfl, rfl⟩

/-- C1, amended: for a word with a non-empty entry list, a non-empty
definitions list and a first definition whose text list has at least two
elements, the resolver returns the second text element of the first entry's
first definition; an empty entry list or an empty definitions list yields
"no definition found" (`None`); but a text list with fewer than two elements
raises an `IndexError` that escapes `get_definition`, and such an escaping
error also escapes `define`. -/
theorem C1_resolver_cases (fetch : Fetch) (w : Tok) :
    (fetch w = [] → get_definition fetch w 0 0 = .ok none) ∧
    (∀ e es, fetch w = e :: es →
      (e.definitions = [] → get_definition fetch w 0 0 = .ok none) ∧
      (∀ d ds, e.definitions = d :: ds →
        (d.text.length ≤ 1 → get_definition fetch w 0 0 = .error ()) ∧
        (∀ t0 t1 ts, d.text = t0 :: t1 :: ts →
          get_definition fetch w 0 0 = .ok (some t1)))) ∧
    (get_definition fetch w 0 0 = .error () → define fetch w = .error ()) := by
  refine ⟨?_, ?_, ?_⟩
  · intro h
    simp [get_definition, h]
  · intro e es he
    constructor
    · intro hd
      simp [get_definition, he, hd]
    · intro d ds hds
      constructor
      · intro hlen
        have : d.text[1]? = none := List.getElem?_eq_none hlen
        simp [get_definition, he, hds, this]
      · intro t0 t1 ts ht
        simp [get_definition, he, hds, ht]
  · intro herr
    simp [define, herr]

/-- C1, witness: on a source with a well-formed two-element text list the
resolver returns the second text element. -/
theorem C1_resolver_cases_witness :
    get_definition fetchTwoTexts (("house").data) 0 0 = .ok (some (("a dwelling").data)) :=
  ((((C1_resolver_cases fetchTwoTexts (("house").data)).2.1
      ⟨[⟨[("noun").data, ("a dwelling").data]⟩]⟩ [] rfl).2
      ⟨[("noun").data, ("a dwelling").data]⟩ [] rfl).2
      (("noun").data) (("a dwelling").data) [] rfl)

/-- C2: on the spec's end-to-end scenario the intended pipeline
(`build_deck`, the deck-building computation with `get_words`' missing
`return` restored) produces exactly the one-entry deck
`Fox; "a wild canine"`; but the code as written fails: `get_words` returns
`None`, so `get_deck` raises a `TypeError` instead of producing the deck. -/
theorem C2_scenario :
    get_deck scenarioTable 5000 scenarioFetch scenarioText = .error () ∧
    build_deck scenarioTable 5000 scenarioFetch scenarioText
      = .ok (("Fox; \"a wild canine\"").data) :=
  ⟨rfl, rfl⟩

/-- C3: when the first lookup reports no definition and the word contains an
uppercase character, `define` retries exactly once with the fully lowercased
word and returns that second result; a word with no uppercase character is
never retried; and no more than two lookups are ever made. -/
theorem C3_lowercase_fallback (fetch : Fetch) (w : Tok) :
    (get_definition fetch w 0 0 = .ok none → (∃ c ∈ w, c.isUpper = true) →
      define fetch w = get_definition fetch (str_lower w) 0 0 ∧
      define_queries fetch w = [w, str_lower w]) ∧
    ((∀ c ∈ w, c.isUpper = false) →
      define fetch w = get_definition fetch w 0 0 ∧
      define_queries fetch w = [w]) ∧
    (define_queries fetch w).length ≤ 2 := by
  refine ⟨?_, ?_, ?_⟩
  · intro hdef hup
    have hne : str_lower w ≠ w := by
      intro he
      obtain ⟨c, hc, hcu⟩ := hup
      have := (str_lower_eq_self_iff w).1 he c hc
      rw [hcu] at this
      exact Bool.noConfusion this
    constructor
    · simp [define, hdef, hne]
    · simp [define_queries, hdef, hne]
  · intro hlow
    have he : str_lower w = w := (str_lower_eq_self_iff w).2 hlow
    cases hdef : get_definition fetch w 0 0 with
    | error e => simp [define, define_queries, hdef]
    | ok r =>
      cases r with
      | none => simp [define, define_queries, hdef, he]
      | some v => simp [define, define_queries, hdef]
  · cases hdef : get_definition fetch w 0 0 with
    | error e => simp [define_queries, hdef]
    | ok r =>
      cases r with
      | none =>
        by_cases hne : str_lower w ≠ w
        · simp [define_queries, hdef, hne]
        · simp [define_queries, hdef, hne]
      | some v => simp [define_queries, hdef]

/-- C3, witness: `"Foo"` with no direct definition retries `"foo"` and
nothing else; `"foo"` is queried once and never retried. -/
theorem C3_lowercase_fallback_witness :
    (define (fun _ => []) (("Foo").data)
        = get_definition (fun _ => []) (str_lower (("Foo").data)) 0 0 ∧
      define_queries (fun _ => []) (("Foo").data)
        = [("Foo").data, str_lower (("Foo").data)]) ∧
    define_queries (fun _ => []) (("foo").data) = [("foo").data] :=
  ⟨(C3_lowercase_fallback (fun _ => []) (("Foo").data)).1 rfl ⟨'F', by decide, by decide⟩,
   ((C3_lowercase_fallback (fun _ => []) (("foo").data)).2.1 (by decide)).2⟩

/-- C4: a word is classified common exactly when its exact string, or its
lowercased form, appears among the words of the first `top` rows of the
frequency table; `"The"` is common when the table holds `"the"`, but
`"light"` is not common when the table holds only `"Light"`. -/
theorem C4_common_word_policy (table : List FreqRow) (top : Nat) (w : Tok) :
    (is_common table top w = true ↔
      (w ∈ commonWords table top ∨ str_lower w ∈ commonWords table top)) ∧
    is_common [⟨1, ("the").data, 0⟩] 5000 (("The").data) = true ∧
    is_common [⟨1, ("Light").data, 0⟩] 5000 (("light").data) = false := by
  refine ⟨?_, by rfl, by rfl⟩
  simp [is_common]

/-- C5: deduplication removes only exact repeats keeping the first
occurrence (it yields a duplicate-free subsequence with the same members,
and deduplicating any truncation yields an initial segment of the result),
`dedup(["a","b","a","c","b"]) = ["a","b","c"]`, and the words of a deck
produced by the pipeline form a subsequence of the token list of the text:
every stage only removes entries and never reorders them. -/
theorem C5_order_preservation (l : List Tok) (table : List FreqRow) (top : Nat)
    (fetch : Fetch) (text : Tok) :
    drop_duplicates l <+ l ∧
    (drop_duplicates l).Nodup ∧
    (∀ x, x ∈ drop_duplicates l ↔ x ∈ l) ∧
    (∀ n, drop_duplicates (l.take n) <+: drop_duplicates l) ∧
    drop_duplicates [("a").data, ("b").data, ("a").data, ("c").data, ("b").data]
      = [("a").data, ("b").data, ("c").data] ∧
    (∀ deck, get_words_run table top fetch text = .ok deck →
      (survivors deck).map Flashcard.word <+ clean text) := by
  refine ⟨drop_duplicates_sublist l, drop_duplicates_nodup l, mem_drop_duplicates l,
    fun n => dropDupAux_take_isPre l n [], by rfl, ?_⟩
  intro deck hdeck
  have hwords : deck.map Flashcard.word = candidate_words table top text :=
    resolve_all_ok_words fetch _ deck hdeck
  have h1 : (survivors deck).map Flashcard.word <+ deck.map Flashcard.word :=
    (survivors_sublist deck).map Flashcard.word
  rw [hwords] at h1
  refine h1.trans ?_
  exact (List.filter_sublist _).trans ((List.take_sublist _ _).trans (dropDupAux_sublist _ []))

/-- C5, witness: a concrete successful run's deck words form a subsequence
of the tokenized text. -/
theorem C5_order_preservation_witness :
    (survivors [⟨("Hi").data, none⟩, ⟨("there").data, none⟩]).map Flashcard.word
      <+ clean (("Hi there").data) :=
  (C5_order_preservation [] scenarioTable 5000 (fun _ => []) (("Hi there").data)).2.2.2.2.2
    [⟨("Hi").data, none⟩, ⟨("there").data, none⟩] rfl

/-- C6: the candidate list is the common-word filter applied to the first
`maxWords` deduplicated tokens (truncation before frequency filtering), has
at most `maxWords` elements, is monotone in `maxWords` as an initial
segment, is an initial segment of the filtered full deduplicated list, the
source fixes `maxWords` to 100, and any deck resolved from the candidates
(and its formatted survivors) has at most `maxWords` entries. -/
theorem C6_truncation_cap (table : List FreqRow) (top n m : Nat) (text : Tok) (fetch : Fetch) :
    candidate_words_n table top n text
      = ((drop_duplicates (clean text)).take n).filter (fun w => !(is_common table top w)) ∧
    (candidate_words_n table top n text).length ≤ n ∧
    (n ≤ m → candidate_words_n table top n text <+: candidate_words_n table top m text) ∧
    candidate_words_n table top n text <+:
      (drop_duplicates (clean text)).filter (fun w => !(is_common table top w)) ∧
    candidate_words table top text = candidate_words_n table top 100 text ∧
    (∀ deck, resolve_all fetch (candidate_words_n table top n text) = .ok deck →
      deck.length ≤ n ∧ (survivors deck).length ≤ n) := by
  refine ⟨rfl, ?_, ?_, ?_, rfl, ?_⟩
  · exact (List.length_filter_le _ _).trans (List.length_take_le _ _)
  · intro hnm
    exact filter_mono_pre _ (take_mono_pre hnm _)
  · exact filter_mono_pre _ (take_isPre _ _)
  · intro deck hdeck
    have hwords : deck.map Flashcard.word = candidate_words_n table top n text :=
      resolve_all_ok_words fetch _ deck hdeck
    have hlen : deck.length ≤ n := by
      have := congrArg List.length hwords
      rw [List.length_map] at this
      rw [this]
      exact (List.length_filter_le _ _).trans (List.length_take_le _ _)
    exact ⟨hlen, ((survivors_sublist deck).length_le).trans hlen⟩

/-- C6, witness: with the cap set to 1 on the scenario text the candidate
list has at most one element, is an initial segment of the cap-2 list, and
the resolved deck has at most one entry. -/
theorem C6_truncation_cap_witness :
    (candidate_words_n scenarioTable 5000 1 scenarioText).length ≤ 1 ∧
    (candidate_words_n scenarioTable 5000 1 scenarioText <+:
      candidate_words_n scenarioTable 5000 2 scenarioText) ∧
    (([] : List Flashcard).length ≤ 1 ∧ (survivors ([] : List Flashcard)).length ≤ 1) :=
  ⟨(C6_truncation_cap scenarioTable 5000 1 2 scenarioText scenarioFetch).2.1,
   (C6_truncation_cap scenarioTable 5000 1 2 scenarioText scenarioFetch).2.2.1 (by decide),
   (C6_truncation_cap scenarioTable 5000 1 2 scenarioText scenarioFetch).2.2.2.2.2 [] rfl⟩

/-- C7: the tokenizer removes every character outside the source's word
class (`\w`: alphanumeric or underscore) and whitespace, then splits on
whitespace runs; a string of only word-class and whitespace characters (no
punctuation) tokenizes to exactly its whitespace split; and leading or
trailing whitespace produces a preserved empty token at the respective
end. -/
theorem C7_tokenizer (s : Tok) (c : Char) :
    clean s = split_by_whitespace (remove_punctuation s) ∧
    ((∀ a ∈ s, (isWordChar a || isSpaceChar a) = true) → clean s = split_by_whitespace s) ∧
    (isSpaceChar c = true → (clean (c :: s)).head? = some []) ∧
    (isSpaceChar c = true → (clean (s ++ [c])).getLast? = some []) := by
  refine ⟨rfl, ?_, fun hc => clean_head_of_space s hc, ?_⟩
  · intro h
    rw [clean, remove_punctuation_eq_self h]
  · intro hc
    have hrp : remove_punctuation (s ++ [c]) = remove_punctuation s ++ [c] := by
      rw [remove_punctuation, List.filter_append]
      simp [remove_punctuation, List.filter_cons, hc]
    rw [clean, hrp, split_by_whitespace]
    exact splitAux_getLast_space hc _ false [] (fun h => Bool.noConfusion h)

/-- C7, witness: a punctuation-free string tokenizes to its whitespace
split, and leading/trailing blanks yield empty boundary tokens. -/
theorem C7_tokenizer_witness :
    clean (("no punct here").data) = split_by_whitespace (("no punct here").data) ∧
    (clean (' ' :: ("ab").data)).head? = some [] ∧
    (clean (("ab").data ++ [' '])).getLast? = some [] :=
  ⟨(C7_tokenizer (("no punct here").data) ' ').2.1 (by decide),
   (C7_tokenizer (("ab").data) ' ').2.2.1 rfl,
   (C7_tokenizer (("ab").data) ' ').2.2.2 rfl⟩

/-- C8: the formatter renders exactly the entries surviving the
drop-absent-definition and drop-empty-word filters, joined by newline; the
filter pair is idempotent; on an already-clean list it removes nothing, so
formatting such a list is just rendering it (and reformatting yields the
same string); and a sample entry renders as `word; "definition"`. -/
theorem C8_formatter (l : List Flashcard) :
    as_string l = joinLines ((survivors l).map get_flashcard) ∧
    survivors (survivors l) = survivors l ∧
    ((∀ c ∈ l, c.definition.isSome ∧ c.word ≠ []) →
      survivors l = l ∧ as_string l = joinLines (l.map get_flashcard)) ∧
    as_string [⟨("cat").data, some (("a small animal").data)⟩]
      = ("cat; \"a small animal\"").data := by
  refine ⟨rfl, survivors_idem l, ?_, by rfl⟩
  intro h
  have hs : survivors l = l := by
    rw [survivors, List.filter_eq_self.2 (fun c hc => (h c hc).1),
      List.filter_eq_self.2 (fun c hc => decide_eq_true (h c hc).2)]
  exact ⟨hs, by rw [as_string, hs]⟩

/-- C8, witness: a clean one-card list survives the filters unchanged and
formats to the plain rendering of its cards. -/
theorem C8_formatter_witness :
    survivors [⟨("cat").data, some (("x").data)⟩] = [⟨("cat").data, some (("x").data)⟩] ∧
    as_string [⟨("cat").data, some (("x").data)⟩]
      = joinLines ([(⟨("cat").data, some (("x").data)⟩ : Flashcard)].map get_flashcard) :=
  (C8_formatter [⟨("cat").data, some (("x").data)⟩]).2.2.1 (by decide)

/-- C9: an empty token at the head of the token list survives deduplication
as a first occurrence, stays in the capped candidate list when the table
does not classify the empty string as common (so it occupies one of the 100
slots and is handed to the definition resolver), and only the final
formatting filter removes it: no survivor of the formatter has an empty
word. -/
theorem C9_empty_token_flow (table : List FreqRow) (top : Nat) (fetch : Fetch) (text : Tok)
    (hhead : (clean text).head? = some [])
    (hcommon : is_common table top [] = false) :
    (drop_duplicates (clean text)).head? = some [] ∧
    [] ∈ candidate_words table top text ∧
    (∀ deck, get_words_run table top fetch text = .ok deck →
      (∃ c ∈ deck, c.word = []) ∧ [] ∉ (survivors deck).map Flashcard.word) := by
  obtain ⟨rest, hrest⟩ : ∃ rest, clean text = [] :: rest := by
    cases hcl : clean text with
    | nil => rw [hcl] at hhead; cases hhead
    | cons a as =>
      rw [hcl] at hhead
      simp only [List.head?_cons, Option.some.injEq] at hhead
      exact ⟨as, by rw [hhead]⟩
  have hdd : drop_duplicates (clean text) = [] :: dropDupAux rest [[]] := by
    rw [hrest, drop_duplicates, dropDupAux]
    simp
  have hmem : [] ∈ candidate_words table top text := by
    rw [candidate_words, candidate_words_n, List.mem_filter]
    constructor
    · rw [hdd, show (100 : Nat) = 99 + 1 from rfl, List.take_succ_cons]
      exact List.mem_cons_self _ _
    · simp [hcommon]
  refine ⟨by rw [hdd]; rfl, hmem, ?_⟩
  intro deck hdeck
  have hwords : deck.map Flashcard.word = candidate_words table top text :=
    resolve_all_ok_words fetch _ deck hdeck
  constructor
  · have hmd : [] ∈ deck.map Flashcard.word := by rw [hwords]; exact hmem
    obtain ⟨c, hc, hcw⟩ := List.mem_map.1 hmd
    exact ⟨c, hc, hcw⟩
  · intro hmem2
    obtain ⟨c, hc, hcw⟩ := List.mem_map.1 hmem2
    have hq := (List.mem_filter.1 hc).2
    rw [hcw] at hq
    simp at hq

/-- C9, witness: text with leading whitespace on a concrete run — the empty
token heads the deduplicated list, is a candidate, reaches the resolver,
and is absent from the formatter's survivors. -/
theorem C9_empty_token_flow_witness :
    (drop_duplicates (clean ((" hi").data))).head? = some [] ∧
    [] ∈ candidate_words scenarioTable 5000 ((" hi").data) ∧
    ((∃ c ∈ ([⟨[], none⟩, ⟨("hi").data, none⟩] : List Flashcard), c.word = []) ∧
      [] ∉ (survivors ([⟨[], none⟩, ⟨("hi").data, none⟩] : List Flashcard)).map
        Flashcard.word) := by
  have h := C9_empty_token_flow scenarioTable 5000 (fun _ => []) ((" hi").data) rfl rfl
  exact ⟨h.1, h.2.1, h.2.2 _ rfl⟩

/-- C10: formatting the empty deck yields the empty string, formatting a
deck whose entries all lack a definition or have an empty word yields the
empty string, and otherwise the output ends in the closing quote of the last
card (no trailing newline) and, when no rendered line contains a newline,
holds exactly one line per surviving entry. -/
theorem C10_format_empty (l : List Flashcard) :
    as_string ([] : List Flashcard) = [] ∧
    ((∀ c ∈ l, c.definition = none ∨ c.word = []) → as_string l = []) ∧
    (survivors l ≠ [] → (as_string l).getLast? = some '"') ∧
    (survivors l ≠ [] → (∀ c ∈ survivors l, '\n' ∉ get_flashcard c) →
      (as_string l).count '\n' + 1 = (survivors l).length) := by
  refine ⟨rfl, ?_, ?_, ?_⟩
  · intro h
    have hs : survivors l = [] := by
      rw [survivors, List.filter_eq_nil_iff]
      intro c hc
      have hcl := List.mem_filter.1 hc
      rcases h c hcl.1 with hd | hw
      · rw [hd] at hcl
        simp at hcl
      · simp [hw]
    rw [as_string, hs]
    rfl
  · intro hne
    rw [as_string]
    refine joinLines_getLast _ ?_ ?_
    · intro x hx
      obtain ⟨c, _, rfl⟩ := List.mem_map.1 hx
      exact get_flashcard_getLast c
    · simp only [ne_eq, List.map_eq_nil_iff]
      exact hne
  · intro hne hnl
    rw [as_string]
    have := joinLines_count_newline ((survivors l).map get_flashcard) ?_ ?_
    · rwa [List.length_map] at this
    · intro x hx
      obtain ⟨c, hc, rfl⟩ := List.mem_map.1 hx
      exact hnl c hc
    · simp only [ne_eq, List.map_eq_nil_iff]
      exact hne

/-- C10, witness: a deck whose only card lacks a definition formats to the
empty string; a deck with one clean card formats to a single line ending in
the closing quote with no trailing newline. -/
theorem C10_format_empty_witness :
    as_string [(⟨("dog").data, none⟩ : Flashcard)] = [] ∧
    (as_string [⟨("cat").data, some (("pet").data)⟩]).getLast? = some '"' ∧
    (as_string [⟨("cat").data, some (("pet").data)⟩]).count '\n' + 1
      = (survivors [⟨("cat").data, some (("pet").data)⟩]).length :=
  ⟨(C10_format_empty [(⟨("dog").data, none⟩ : Flashcard)]).2.1 (by decide),
   (C10_format_empty [⟨("cat").data, some (("pet").data)⟩]).2.2.1 (by decide),
   (C10_format_empty [⟨("cat").data, some (("pet").data)⟩]).2.2.2 (by decide) (by decide)⟩

end WikiToAnki
